import Mathlib

set_option maxRecDepth 1000000

/-!
Verification development for the RAG-Project repository.

The embedding models, over `List Char` texts:
* the text-splitting pipeline invoked by `pysrc/document_processor.py`
  (langchain's `RecursiveCharacterTextSplitter` with `chunk_size=1000`,
  `chunk_overlap=200`, `length_function=len`,
  `separators=["\n\n", "\n", ".", "!", "?", ",", " "]`, and the class
  defaults `keep_separator=True` and `strip_whitespace=True`);
* `DocumentProcessor.load_and_split_documents` over a model of the
  input directory;
* `EmbeddingsManager.create_vector_store` (its empty-input guard is in
  `pysrc/embeddings_manager.py`; the store population and querying are
  modelled from the spec, since Chroma and `pysrc/rag_engine.py` are not
  part of the available sources);
* the session-state handlers of `stmain.py`.
-/

namespace RAG

/-- A text is a list of characters (Python `str`, length in characters). -/
abbrev Text := List Char

/-- The characters removed by Python's `str.strip()`. -/
def isPySpace (c : Char) : Bool :=
  c = ' ' || c = '\t' || c = '\n' || c = '\r' || c = '\x0b' || c = '\x0c'

/-- Python `str.strip()`: remove leading and trailing whitespace. -/
def pyStrip (t : Text) : Text :=
  ((t.dropWhile isPySpace).reverse.dropWhile isPySpace).reverse

/-- Total length of a list of texts (`total` bookkeeping of `_merge_splits`
with the empty joining separator of `keep_separator=True`). -/
def sumLen (l : List Text) : Nat := (l.map List.length).sum

/-- `re.search(re.escape(sep), text)` on a literal separator: substring
occurrence. -/
def occurs (sep : Text) : Text → Bool
  | [] => sep.isEmpty
  | c :: rest => sep.isPrefixOf (c :: rest) || occurs sep rest

/-- Leftmost, non-overlapping split of `text` at occurrences of the
separator `s0 :: srest`, accumulator style; `fuel` bounds the recursion and
is instantiated with `text.length`, which every step consumes at least one
unit of, so the `fuel = 0` arm is never reached from `splitOnL`. -/
def splitOnAux (s0 : Char) (srest : Text) : Nat → Text → Text → List Text
  | _, [], acc => [acc.reverse]
  | 0, t, acc => [acc.reverse ++ t]
  | fuel + 1, c :: rest, acc =>
    if (s0 :: srest).isPrefixOf (c :: rest) then
      acc.reverse :: splitOnAux s0 srest fuel (rest.drop srest.length) []
    else
      splitOnAux s0 srest fuel rest (c :: acc)

/-- Python `re.split(re.escape(sep), text)` for a literal separator:
the pieces of `text` between occurrences of `sep` (empty pieces kept). -/
def splitOnL (sep text : Text) : List Text :=
  match sep with
  | [] => [text]
  | s0 :: srest => splitOnAux s0 srest text.length text []

/-- langchain `_split_text_with_regex` with `keep_separator=True`: split at
the separator, re-attach each separator occurrence to the front of the
following piece, and drop empty pieces. -/
def splitWithSep (sep text : Text) : List Text :=
  match splitOnL sep text with
  | [] => []
  | p :: rest => (p :: rest.map (fun q => sep ++ q)).filter (fun t => t ≠ [])

/-- The `while` loop of langchain `_merge_splits` (with joining separator
`""`): pop splits from the front of the running window while its total
length exceeds the overlap, or adding the next split would exceed the chunk
size.  When `total` is the window's total length the `[]` arm is
unreachable (an empty window has `total = 0`, falsifying the condition). -/
def popWhile (ov size lenD : Nat) : List Text → Nat → List Text × Nat
  | current, total =>
    if total > ov ∨ (total + lenD > size ∧ 0 < total) then
      match current with
      | [] => ([], total)
      | c :: cs => popWhile ov size lenD cs (total - c.length)
    else
      (current, total)

/-- The main loop of langchain `_merge_splits` with joining separator `""`
(`keep_separator=True`), before whitespace-stripping: accumulate splits
into a sliding window `current`; when the next split would push the window
past `size`, emit the window's concatenation and retain at most `ov`
characters of it.  Returns the emitted texts, un-stripped. -/
def mergeAux (size ov : Nat) : List Text → List Text → Nat → List Text
  | [], current, _ => [current.flatten]
  | d :: ds, current, total =>
    if total + d.length > size then
      if current.isEmpty then
        mergeAux size ov ds [d] (total + d.length)
      else
        let doc := current.flatten
        let r := popWhile ov size d.length current total
        doc :: mergeAux size ov ds (r.1 ++ [d]) (r.2 + d.length)
    else
      mergeAux size ov ds (current ++ [d]) (total + d.length)

/-- langchain `_merge_splits` with `strip_whitespace=True`: each emitted
document is stripped, and documents that become empty are dropped
(`_join_docs` returning `None`). -/
def mergeSplits (size ov : Nat) (splits : List Text) : List Text :=
  ((mergeAux size ov splits [] 0).map pyStrip).filter (fun t => t ≠ [])

/-- The split-processing loop of langchain `_split_text`: splits shorter
than `size` accumulate in `good`; at each over-long split the accumulated
good splits are merged and emitted, and the over-long split is either
recursed into (`recur = some f`, remaining separators exist) or emitted
whole (`recur = none`, no separators left — there is no hard character cut
because the configured separator list does not end with `""`). -/
def goSplits (size ov : Nat) (recur : Option (Text → List Text)) :
    List Text → List Text → List Text
  | [], good => if good.isEmpty then [] else mergeSplits size ov good
  | d :: ds, good =>
    if d.length < size then
      goSplits size ov recur ds (good ++ [d])
    else
      (if good.isEmpty then [] else mergeSplits size ov good) ++
      recur.elim [d] (fun f => f d) ++
      goSplits size ov recur ds []

/-- langchain `_split_text`: choose the first separator of `seps` that
occurs in `text` (defaulting to the last separator when none occurs), split
at it keeping separators, and process the pieces; over-long pieces recurse
with the separators after the chosen one.  The `[]` arm is unreachable from
`splitText` (the configured list is non-empty). -/
def splitTextAux (size ov : Nat) : List Text → Text → List Text
  | [], text => [text]
  | s :: rest, text =>
    if occurs s text || rest.isEmpty then
      goSplits size ov
        (if rest.isEmpty then none else some (fun t => splitTextAux size ov rest t))
        (splitWithSep s text) []
    else
      splitTextAux size ov rest text

/-- The separator list configured in `DocumentProcessor.__init__`. -/
def sepList : List Text :=
  [['\n', '\n'], ['\n'], ['.'], ['!'], ['?'], [','], [' ']]

/-- `self.text_splitter.split_text` as configured in
`DocumentProcessor.__init__`: `chunk_size=1000`, `chunk_overlap=200`. -/
def splitText (text : Text) : List Text :=
  splitTextAux 1000 200 sepList text

/-! ## Document loading (`pysrc/document_processor.py`) -/

/-- A chunk produced by the splitter: page content plus the
`{"source": filename}` metadata. -/
structure Chunk where
  content : Text
  source : Text
  deriving DecidableEq, Repr

instance {ε α : Type} [DecidableEq ε] [DecidableEq α] :
    DecidableEq (Except ε α) := fun a b =>
  match a, b with
  | .error e, .error e' =>
    if h : e = e' then .isTrue (by rw [h]) else .isFalse (by simpa using h)
  | .error _, .ok _ => .isFalse (by simp)
  | .ok _, .error _ => .isFalse (by simp)
  | .ok x, .ok y =>
    if h : x = y then .isTrue (by rw [h]) else .isFalse (by simpa using h)

/-- A file of the input directory: its name and either its decoded text
content or a read error (`open`/`read`/decode raising). -/
structure FileEntry where
  name : Text
  data : Except Unit Text
  deriving DecidableEq

/-- A directory listing, in `os.listdir` order. -/
abbrev Dir := List FileEntry

/-- The two `ValueError`s of `load_and_split_documents`. -/
inductive LoadErr where
  | notFound
  | noValidDocuments
  deriving DecidableEq, Repr

/-- The suffix tested by `filename.endswith('.txt')`. -/
def txtSuffix : Text := ['.', 't', 'x', 't']

/-- The per-file body of the loop in `load_and_split_documents`: a read
error skips the file (`except ... continue`), an empty-after-strip file is
skipped with a warning, and otherwise the file's text is split and each
chunk carries the filename as source metadata. -/
def processFile (f : FileEntry) : List Chunk :=
  match f.data with
  | .error _ => []
  | .ok text =>
    if pyStrip text ≠ [] then
      (splitText text).map (fun c => { content := c, source := f.name })
    else
      []

/-- The names of the files the loop opens and reads: exactly those whose
name ends in `.txt` (all other files are passed over without any log). -/
def processedFileNames (files : Dir) : List Text :=
  (files.filter (fun f => txtSuffix.isSuffixOf f.name)).map (fun f => f.name)

/-- `DocumentProcessor.load_and_split_documents`: a missing directory is
`notFound`; otherwise the `.txt` files are processed in listing order and
an empty aggregate result is `noValidDocuments`. -/
def loadAndSplitDocuments (dir : Option Dir) : Except LoadErr (List Chunk) :=
  match dir with
  | none => .error .notFound
  | some files =>
    let documents :=
      (files.filter (fun f => txtSuffix.isSuffixOf f.name)).flatMap processFile
    if documents.isEmpty then .error .noValidDocuments else .ok documents

/-! ## Embeddings and vector store (`pysrc/embeddings_manager.py`)

The guard is from the source; the store itself is modelled from the spec:
Chroma's internals are not in the sources, and §4.2 requires only a
deterministic text-to-vector mapping and a store holding every
(chunk, vector) pair, supporting ordered nearest-neighbour query. -/

/-- Modelled from the spec: an embedding vector (§3 `EmbeddingVector`, a
fixed-dimension numeric vector; the design only requires a deterministic
mapping from text to such a vector). -/
abbrev Vec := List Int

/-- Modelled from the spec: the vector store as the collection of
(chunk, embedding) records inserted by `Chroma.from_documents` (§3
`VectorStore`, §4.2). -/
structure VectorStore where
  entries : List (Chunk × Vec)
  deriving DecidableEq

/-- The error of `create_vector_store` on empty input. -/
inductive BuildErr where
  | invalidInput
  deriving DecidableEq, Repr

/-- `EmbeddingsManager.create_vector_store`: the `if not documents` guard
is from the source; on non-empty input the store is populated with one
(chunk, embedding) record per chunk, in order (population modelled from
the spec, §4.2). -/
def createVectorStore (emb : Text → Vec) (documents : List Chunk) :
    Except BuildErr VectorStore :=
  if documents.isEmpty then .error .invalidInput
  else .ok ⟨documents.map (fun d => (d, emb d.content))⟩

/-- Insert an item into a list sorted by decreasing score, keeping it
sorted (stable: ties keep the earlier item first). -/
def insertDesc (x : Chunk × Int) : List (Chunk × Int) → List (Chunk × Int)
  | [] => [x]
  | y :: ys => if y.2 < x.2 then x :: y :: ys else y :: insertDesc x ys

/-- Sort scored chunks by decreasing score. -/
def sortDesc (l : List (Chunk × Int)) : List (Chunk × Int) :=
  l.foldr insertDesc []

/-- Modelled from the spec: nearest-neighbour query against the store
(`Chroma.similarity_search`, not in the sources): score every stored
record's vector against the embedded query text with the similarity
function `sim`, order by decreasing similarity, return the top `k`
(§4.2: `query(text, k) → ordered sequence of (Chunk, similarity score),
most-similar first`). -/
def queryStore (emb : Text → Vec) (sim : Vec → Vec → Int)
    (store : VectorStore) (text : Text) (k : Nat) : List (Chunk × Int) :=
  (sortDesc (store.entries.map (fun e => (e.1, sim (emb text) e.2)))).take k

/-! ## RAG engine (`pysrc/rag_engine.py` is imported by `stmain.py` but
missing from the sources; modelled from the spec, §4.3/§6) -/

/-- Modelled from the spec: the `RAGEngine` state — the vector store
handle it was constructed with and the mutable settings
(§6: temperature default 0.7, context_length default 3). -/
structure Engine where
  store : VectorStore
  temperature : ℚ
  contextLength : Nat
  deriving DecidableEq

/-- Modelled from the spec: `RAGEngine(vector_store)` construction with
the default settings (§6). -/
def mkEngine (store : VectorStore) : Engine :=
  { store := store, temperature := 7 / 10, contextLength := 3 }

/-- Modelled from the spec: `RAGEngine.update_settings(temperature,
context_length)` overwrites the two settings and touches nothing else
(§4.3: settings do not trigger re-embedding or re-indexing). -/
def updateSettings (e : Engine) (t : ℚ) (k : Nat) : Engine :=
  { e with temperature := t, contextLength := k }

/-- Modelled from the spec: the retrieval step of
`RAGEngine.answer_question` — top `context_length` chunks for the
question (§4.3). -/
def retrieve (emb : Text → Vec) (sim : Vec → Vec → Int)
    (e : Engine) (question : Text) : List (Chunk × Int) :=
  queryStore emb sim e.store question e.contextLength

/-- Modelled from the spec: the prompt combining the retrieved chunk texts
(each tagged with its source) and the question (§4.3). -/
def buildPrompt (retrieved : List (Chunk × Int)) (question : Text) : Text :=
  (retrieved.map (fun r => r.1.source ++ [':'] ++ r.1.content ++ ['\n'])).flatten
    ++ question

/-- Modelled from the spec: `RAGEngine.answer_question` — retrieve, build
the prompt, call the language model (an external function that may fail),
and return its response verbatim (§4.3). -/
def answerQuestion (emb : Text → Vec) (sim : Vec → Vec → Int)
    (lm : ℚ → Text → Except Unit Text) (e : Engine) (question : Text) :
    Except Unit Text :=
  lm e.temperature (buildPrompt (retrieve emb sim e question) question)

/-! ## Shell session state (`stmain.py`) -/

/-- A chat message role. -/
inductive Role where
  | user
  | assistant
  deriving DecidableEq, Repr

/-- One entry of `st.session_state.chat_history`. -/
structure ChatTurn where
  role : Role
  content : Text
  deriving DecidableEq

/-- The Streamlit session state: `rag_engine`, `chat_history`,
`doc_stats` (processed files, chunks). -/
structure SessionState where
  ragEngine : Option Engine
  chatHistory : List ChatTurn
  docStats : Nat × Nat
  deriving DecidableEq

/-- `process_files` (`stmain.py`) together with its caller's error
handling: the pipeline runs on the saved files; only after both
`load_and_split_documents` and `create_vector_store` succeed is the
session state assigned (`rag_engine`, `doc_stats`); on failure the caught
error is displayed and the state is untouched. -/
def processFilesStep (emb : Text → Vec) (s : SessionState) (files : Dir) :
    SessionState × Option (Except LoadErr BuildErr) :=
  match loadAndSplitDocuments (some files) with
  | .error e => (s, some (.error e))
  | .ok documents =>
    match createVectorStore emb documents with
    | .error e => (s, some (.ok e))
    | .ok store =>
      ({ ragEngine := some (mkEngine store),
         chatHistory := s.chatHistory,
         docStats := (files.length, documents.length) }, none)

/-- The chat-input handler (`stmain.py`): with no engine only a warning is
shown; otherwise the user message is appended to the history, the engine
is asked, and on success the response is appended while on failure the
error is displayed and nothing further is appended. -/
def chatStep (emb : Text → Vec) (sim : Vec → Vec → Int)
    (lm : ℚ → Text → Except Unit Text) (s : SessionState) (prompt : Text) :
    SessionState :=
  match s.ragEngine with
  | none => s
  | some e =>
    let s1 := { s with chatHistory := s.chatHistory ++ [⟨Role.user, prompt⟩] }
    match answerQuestion emb sim lm e prompt with
    | .ok response =>
      { s1 with chatHistory := s1.chatHistory ++ [⟨Role.assistant, response⟩] }
    | .error _ => s1

/-- The Save Settings handler (`stmain.py`): with an engine present,
forward the two settings to it; otherwise do nothing. -/
def saveSettingsStep (s : SessionState) (t : ℚ) (k : Nat) : SessionState :=
  match s.ragEngine with
  | none => s
  | some e => { s with ragEngine := some (updateSettings e t k) }

/-- The Clear Chat History handler (`stmain.py`): reset `chat_history` to
the empty list. -/
def clearChatHistory (s : SessionState) : SessionState :=
  { s with chatHistory := [] }

/-! ## Reconstruction predicate for the round-trip claim -/

/-- An atomic unit of 1001 characters: no configured separator occurs in
it, so the splitter cannot split it at all. -/
def longWord : Text := List.replicate 1001 'a'

/-- A 1200-character document of three 399-character sentences: longer
than `chunk_size + chunk_overlap`, yet its chunks share no 200-character
overlap. -/
def docC2 : Text :=
  (List.replicate 399 'a' ++ ['.']) ++ (List.replicate 399 'a' ++ ['.']) ++
    (List.replicate 399 'a' ++ ['.'])

/-- First chunk the splitter produces from `docC2`. -/
def chunkC2a : Text := List.replicate 399 'a' ++ ['.'] ++ List.replicate 399 'a'

/-- Second chunk the splitter produces from `docC2`. -/
def chunkC2b : Text := ['.'] ++ List.replicate 399 'a' ++ ['.']

/-- A file whose text ends in a newline: the round-trip counterexample. -/
def fileHiNl : FileEntry := { name := ['a', '.', 't', 'x', 't'], data := .ok ['h', 'i', '\n'] }

/-- A directory containing a single non-`.txt` file. -/
def dirOnlyPdf : Dir := [{ name := ['a', '.', 'p', 'd', 'f'], data := .ok ['h', 'i'] }]

/-- A file whose read raises. -/
def fileUnreadable : FileEntry := { name := ['b', '.', 't', 'x', 't'], data := .error () }

/-- A trivial embedding used for concrete instances. -/
def cEmb : Text → Vec := fun _ => []

/-- A trivial similarity used for concrete instances. -/
def cSim : Vec → Vec → Int := fun _ _ => 0

/-- A language-model stub that always fails (network/quota/timeout). -/
def cFailLM : ℚ → Text → Except Unit Text := fun _ _ => .error ()

/-- A two-entry store used for concrete instances. -/
def cStore : VectorStore :=
  ⟨[({ content := ['x'], source := ['s'] }, [1]),
    ({ content := ['y'], source := ['s'] }, [2])]⟩

/-- A session state holding an engine over the empty store. -/
def cState : SessionState :=
  { ragEngine := some (mkEngine ⟨[]⟩), chatHistory := [], docStats := (0, 0) }

/-- A chunk has no space character after its first character: the shape of
an atomic unit emitted whole at the final separator level. -/
def tailNoSpace (c : Text) : Prop := ∀ ch ∈ c.drop 1, ch ≠ ' '

/-! ## Basic lemmas about the text utilities -/

theorem sumLen_nil : sumLen [] = 0 := rfl

theorem sumLen_cons (d : Text) (l : List Text) :
    sumLen (d :: l) = d.length + sumLen l := by
  simp [sumLen]

theorem sumLen_append (l₁ l₂ : List Text) :
    sumLen (l₁ ++ l₂) = sumLen l₁ + sumLen l₂ := by
  simp [sumLen]

theorem length_flatten_eq (l : List Text) : l.flatten.length = sumLen l :=
  List.length_flatten l

theorem length_pyStrip_le (t : Text) : (pyStrip t).length ≤ t.length := by
  have h1 : ((t.dropWhile isPySpace).reverse.dropWhile isPySpace).length
      ≤ (t.dropWhile isPySpace).reverse.length :=
    (List.dropWhile_sublist _).length_le
  have h2 : (t.dropWhile isPySpace).length ≤ t.length :=
    (List.dropWhile_sublist _).length_le
  simp only [pyStrip, List.length_reverse] at h1 ⊢
  omega

theorem popWhile_spec (ov size lenD : Nat) (current : List Text) :
    ∀ total, total = sumLen current →
      (popWhile ov size lenD current total).2
          = sumLen (popWhile ov size lenD current total).1 ∧
      (popWhile ov size lenD current total).2 ≤ ov ∧
      ((popWhile ov size lenD current total).2 + lenD ≤ size ∨
        (popWhile ov size lenD current total).2 = 0) ∧
      (popWhile ov size lenD current total).1 <:+ current := by
  induction current with
  | nil =>
    intro total h
    rw [sumLen_nil] at h
    subst h
    rw [popWhile, if_neg (by omega)]
    exact ⟨rfl, by omega, by omega, List.suffix_refl _⟩
  | cons c cs ih =>
    intro total h
    rw [popWhile]
    by_cases hc : total > ov ∨ (total + lenD > size ∧ 0 < total)
    · rw [if_pos hc]
      have h' : total - c.length = sumLen cs := by
        rw [h, sumLen_cons]; omega
      obtain ⟨h1, h2, h3, h4⟩ := ih (total - c.length) h'
      exact ⟨h1, h2, h3, h4.trans (List.suffix_cons c cs)⟩
    · rw [if_neg hc]
      push_neg at hc
      exact ⟨h, hc.1, by omega, List.suffix_refl _⟩

/-! ## The merge step -/

theorem mergeAux_bound (size ov : Nat) (splits : List Text) :
    ∀ current total, (∀ d ∈ splits, d.length < size) →
      total = sumLen current → total ≤ size →
      ∀ doc ∈ mergeAux size ov splits current total, doc.length ≤ size := by
  induction splits with
  | nil =>
    intro current total _ ht hs doc hdoc
    rw [mergeAux] at hdoc
    simp only [List.mem_singleton] at hdoc
    subst hdoc
    rw [length_flatten_eq, ← ht]
    exact hs
  | cons d ds ih =>
    intro current total hlt ht hs doc hdoc
    have hd : d.length < size := hlt d (List.mem_cons_self d ds)
    have hds : ∀ e ∈ ds, e.length < size := fun e he => hlt e (List.mem_cons_of_mem d he)
    rw [mergeAux] at hdoc
    by_cases hflush : total + d.length > size
    · rw [if_pos hflush] at hdoc
      by_cases hcur : current.isEmpty
      · exfalso
        have : current = [] := by simpa [List.isEmpty_iff] using hcur
        subst this
        rw [sumLen_nil] at ht
        omega
      · rw [if_neg (by simpa using hcur)] at hdoc
        simp only [List.mem_cons] at hdoc
        obtain ⟨h1, _, h3, _⟩ := popWhile_spec ov size d.length current total ht
        rcases hdoc with hdoc | hdoc
        · subst hdoc
          rw [length_flatten_eq, ← ht]
          exact hs
        · refine ih _ _ hds ?_ ?_ doc hdoc
          · rw [sumLen_append, ← h1, sumLen_cons, sumLen_nil]; omega
          · omega
    · rw [if_neg hflush] at hdoc
      refine ih _ _ hds ?_ ?_ doc hdoc
      · rw [sumLen_append, ← ht, sumLen_cons, sumLen_nil]; omega
      · omega

theorem mergeSplits_bound (size ov : Nat) (splits : List Text)
    (hlt : ∀ d ∈ splits, d.length < size) :
    ∀ doc ∈ mergeSplits size ov splits, doc.length ≤ size := by
  intro doc hdoc
  rw [mergeSplits] at hdoc
  have hdoc' := List.mem_of_mem_filter hdoc
  obtain ⟨raw, hraw, heq⟩ := List.mem_map.mp hdoc'
  subst heq
  exact (length_pyStrip_le raw).trans
    (mergeAux_bound size ov splits [] 0 hlt rfl (by omega) raw hraw)

/-! ## Pieces of a single-character split contain the separator character
only as their first character -/

theorem splitOnAux_no_char (s0 : Char) (fuel : Nat) :
    ∀ (text acc : Text), text.length ≤ fuel → (∀ ch ∈ acc, ch ≠ s0) →
      ∀ p ∈ splitOnAux s0 [] fuel text acc, ∀ ch ∈ p, ch ≠ s0 := by
  induction fuel with
  | zero =>
    intro text acc hf hacc p hp
    cases text with
    | nil =>
      rw [splitOnAux] at hp
      simp only [List.mem_singleton] at hp
      subst hp
      intro ch hch
      exact hacc ch (by simpa using hch)
    | cons c rest => simp at hf
  | succ n ih =>
    intro text acc hf hacc p hp
    cases text with
    | nil =>
      rw [splitOnAux] at hp
      simp only [List.mem_singleton] at hp
      subst hp
      intro ch hch
      exact hacc ch (by simpa using hch)
    | cons c rest =>
      rw [splitOnAux] at hp
      simp only [List.length_cons] at hf
      by_cases hpre : [s0].isPrefixOf (c :: rest) = true
      · rw [if_pos hpre] at hp
        have hc : s0 = c := by
          have := List.isPrefixOf_iff_prefix.mp hpre
          exact (List.cons_prefix_cons.mp this).1
        simp only [List.mem_cons] at hp
        rcases hp with hp | hp
        · subst hp
          intro ch hch
          exact hacc ch (by simpa using hch)
        · refine ih (rest.drop 0) [] ?_ (by simp) p hp
          simp only [List.drop_zero]
          omega
      · rw [if_neg hpre] at hp
        have hcne : c ≠ s0 := by
          intro h
          apply hpre
          subst h
          simp [List.isPrefixOf]
        refine ih rest (c :: acc) (by omega) ?_ p hp
        intro ch hch
        rcases List.mem_cons.mp hch with h | h
        · subst h; exact hcne
        · exact hacc ch h

theorem splitOnL_no_char (s0 : Char) (text : Text) :
    ∀ p ∈ splitOnL [s0] text, ∀ ch ∈ p, ch ≠ s0 := by
  intro p hp
  rw [splitOnL] at hp
  exact splitOnAux_no_char s0 text.length text [] le_rfl (by simp) p hp

theorem splitWithSep_single_tail (s0 : Char) (text : Text) :
    ∀ p ∈ splitWithSep [s0] text, ∀ ch ∈ p.drop 1, ch ≠ s0 := by
  intro p hp ch hch
  rw [splitWithSep] at hp
  cases hsp : splitOnL [s0] text with
  | nil => rw [hsp] at hp; simp at hp
  | cons p0 rest =>
    rw [hsp] at hp
    have hp' := List.mem_of_mem_filter hp
    rcases List.mem_cons.mp hp' with hp' | hp'
    · subst hp'
      refine splitOnL_no_char s0 text p ?_ ch (List.mem_of_mem_drop hch)
      rw [hsp]
      exact List.mem_cons_self p rest
    · obtain ⟨q, hq, heq⟩ := List.mem_map.mp hp'
      subst heq
      simp only [List.singleton_append, List.drop_succ_cons, List.drop_zero] at hch
      refine splitOnL_no_char s0 text q ?_ ch hch
      rw [hsp]
      exact List.mem_cons_of_mem p0 hq

/-! ## The chunk-length bound of the splitter -/

theorem goSplits_bound (size ov : Nat) (recur : Option (Text → List Text))
    (hrec : ∀ f, recur = some f → ∀ t c, c ∈ f t →
      c.length ≤ size ∨ (size ≤ c.length ∧ tailNoSpace c)) :
    ∀ splits good,
      (recur = none → ∀ d ∈ splits, tailNoSpace d) →
      (∀ g ∈ good, g.length < size) →
      ∀ c ∈ goSplits size ov recur splits good,
        c.length ≤ size ∨ (size ≤ c.length ∧ tailNoSpace c) := by
  intro splits
  induction splits with
  | nil =>
    intro good _ hgood c hc
    rw [goSplits] at hc
    by_cases hg : good.isEmpty
    · rw [if_pos hg] at hc; simp at hc
    · rw [if_neg hg] at hc
      exact Or.inl (mergeSplits_bound size ov good hgood c hc)
  | cons d ds ih =>
    intro good hatomic hgood c hc
    rw [goSplits] at hc
    by_cases hd : d.length < size
    · rw [if_pos hd] at hc
      refine ih _ (fun hn e he => hatomic hn e (List.mem_cons_of_mem d he)) ?_ c hc
      intro g hg
      rcases List.mem_append.mp hg with hg | hg
      · exact hgood g hg
      · rw [List.mem_singleton.mp hg]; exact hd
    · rw [if_neg hd] at hc
      rcases List.mem_append.mp hc with hc | hc
      · rcases List.mem_append.mp hc with hc | hc
        · by_cases hg : good.isEmpty
          · rw [if_pos hg] at hc; simp at hc
          · rw [if_neg hg] at hc
            exact Or.inl (mergeSplits_bound size ov good hgood c hc)
        · cases hr : recur with
          | none =>
            rw [hr] at hc
            simp only [Option.elim] at hc
            rw [List.mem_singleton.mp hc]
            exact Or.inr ⟨by omega, hatomic hr d (List.mem_cons_self d ds)⟩
          | some f =>
            rw [hr] at hc
            simp only [Option.elim] at hc
            exact hrec f hr d c hc
      · exact ih [] (fun hn e he => hatomic hn e (List.mem_cons_of_mem d he))
          (by simp) c hc

theorem splitTextAux_bound (seps : List Text) :
    seps.getLast? = some [' '] →
    ∀ text c, c ∈ splitTextAux 1000 200 seps text →
      c.length ≤ 1000 ∨ (1000 ≤ c.length ∧ tailNoSpace c) := by
  induction seps with
  | nil => intro h; simp at h
  | cons s rest ih =>
    intro hlast text c hc
    rw [splitTextAux] at hc
    by_cases hcond : (occurs s text || rest.isEmpty) = true
    · rw [if_pos hcond] at hc
      refine goSplits_bound 1000 200 _ ?_ (splitWithSep s text) [] ?_ (by simp) c hc
      · intro f hf t c' hc'
        by_cases hre : rest.isEmpty
        · rw [if_pos hre] at hf; simp at hf
        · rw [if_neg hre] at hf
          have hrest : rest.getLast? = some [' '] := by
            cases rest with
            | nil => simp at hre
            | cons r rs => rw [← List.getLast?_cons_cons]; exact hlast
          have hfeq : f = fun t => splitTextAux 1000 200 rest t := by
            exact (Option.some_injective _ hf).symm
          rw [hfeq] at hc'
          exact ih hrest t c' hc'
      · intro hn d hd
        by_cases hre : rest.isEmpty
        · have hrnil : rest = [] := by simpa [List.isEmpty_iff] using hre
          subst hrnil
          have hs : s = [' '] := by simpa using hlast
          subst hs
          exact splitWithSep_single_tail ' ' text d hd
        · rw [if_neg hre] at hn; simp at hn
    · rw [if_neg hcond] at hc
      have hre : rest.isEmpty = false := by
        simp only [Bool.or_eq_true, not_or, Bool.not_eq_true] at hcond
        exact hcond.2
      have hrest : rest.getLast? = some [' '] := by
        cases rest with
        | nil => simp at hre
        | cons r rs => rw [← List.getLast?_cons_cons]; exact hlast
      exact ih hrest text c hc

theorem splitText_bound (text : Text) :
    ∀ c ∈ splitText text, c.length ≤ 1000 ∨ (1000 ≤ c.length ∧ tailNoSpace c) :=
  splitTextAux_bound sepList (by simp [sepList]) text

/-! ## The pieces of a keep-separator split concatenate to the text -/

theorem mem_insertDesc (x z : Chunk × Int) (l : List (Chunk × Int)) :
    z ∈ insertDesc x l ↔ z = x ∨ z ∈ l := by
  induction l with
  | nil => simp [insertDesc]
  | cons y ys ih =>
    rw [insertDesc]
    by_cases h : y.2 < x.2
    · rw [if_pos h]
      simp only [List.mem_cons]
    · rw [if_neg h]
      simp only [List.mem_cons, ih]
      tauto

theorem length_insertDesc (x : Chunk × Int) (l : List (Chunk × Int)) :
    (insertDesc x l).length = l.length + 1 := by
  induction l with
  | nil => rfl
  | cons y ys ih =>
    rw [insertDesc]
    by_cases h : y.2 < x.2
    · rw [if_pos h]; simp
    · rw [if_neg h]; simp [ih]

theorem pairwise_insertDesc (x : Chunk × Int) (l : List (Chunk × Int))
    (hl : l.Pairwise (fun a b => b.2 ≤ a.2)) :
    (insertDesc x l).Pairwise (fun a b => b.2 ≤ a.2) := by
  induction l with
  | nil => simp [insertDesc]
  | cons y ys ih =>
    rw [insertDesc]
    rcases List.pairwise_cons.mp hl with ⟨hy, hys⟩
    by_cases h : y.2 < x.2
    · rw [if_pos h]
      refine List.pairwise_cons.mpr ⟨?_, hl⟩
      intro z hz
      rcases List.mem_cons.mp hz with rfl | hz
      · omega
      · have := hy z hz; omega
    · rw [if_neg h]
      refine List.pairwise_cons.mpr ⟨?_, ih hys⟩
      intro z hz
      rcases (mem_insertDesc x z ys).mp hz with rfl | hz
      · omega
      · exact hy z hz

theorem pairwise_sortDesc (l : List (Chunk × Int)) :
    (sortDesc l).Pairwise (fun a b => b.2 ≤ a.2) := by
  induction l with
  | nil => simp [sortDesc]
  | cons x xs ih => exact pairwise_insertDesc x _ ih

theorem length_sortDesc (l : List (Chunk × Int)) :
    (sortDesc l).length = l.length := by
  induction l with
  | nil => rfl
  | cons x xs ih =>
    rw [sortDesc, List.foldr_cons, length_insertDesc]
    rw [sortDesc] at ih
    rw [ih, List.length_cons]

theorem length_queryStore (emb : Text → Vec) (sim : Vec → Vec → Int)
    (store : VectorStore) (text : Text) (k : Nat) :
    (queryStore emb sim store text k).length = min k store.entries.length := by
  rw [queryStore, List.length_take, length_sortDesc, List.length_map]

/-! ## Assembly machinery for the round-trip claim -/

/-- C1 (counterexample): the claim's hard-cut fallback does not exist. On a
file that is a single 1001-character atomic unit (no configured separator
occurs in it), `load_and_split_documents`' splitter emits one chunk of
1001 characters — a hard cut at `L = 1000` would have bounded every chunk
by 1000 characters. -/
theorem C1_counterexample :
    splitText longWord = [longWord] ∧ 1000 < (longWord : Text).length := by
  constructor
  · decide
  · decide

/-- C1 (amended): every chunk produced by `load_and_split_documents` has at
most `L = 1000` characters, except chunks that are single atomic units
between separators: those are emitted whole — they have at least 1000
characters and contain no space after their leading character (they were
unsplittable at the final fallback separator) — with no hard character
cut. The splitter prefers the highest-priority separator occurring in the
text (splitting there and recursing into over-long pieces with the
lower-priority separators), not necessarily one keeping chunks under
`L`. -/
theorem C1_chunk_bound :
    (∀ (dir : Option Dir) (chunks : List Chunk),
      loadAndSplitDocuments dir = .ok chunks →
      ∀ c ∈ chunks, c.content.length ≤ 1000 ∨
        (1000 ≤ c.content.length ∧ tailNoSpace c.content)) ∧
    (∀ (s : Text) (rest : List Text) (text : Text), occurs s text = true →
      splitTextAux 1000 200 (s :: rest) text =
        goSplits 1000 200
          (if rest.isEmpty then none else some fun t => splitTextAux 1000 200 rest t)
          (splitWithSep s text) []) := by
  constructor
  · intro dir chunks h c hc
    cases dir with
    | none => simp [loadAndSplitDocuments] at h
    | some files =>
      simp only [loadAndSplitDocuments] at h
      by_cases he :
          ((files.filter (fun f => txtSuffix.isSuffixOf f.name)).flatMap processFile).isEmpty
      · rw [if_pos he] at h
        exact absurd h (by simp)
      · rw [if_neg he] at h
        injection h with h
        subst h
        obtain ⟨f, _, hcf⟩ := List.mem_flatMap.mp hc
        cases hdata : f.data with
        | error e => simp [processFile, hdata] at hcf
        | ok text =>
          simp only [processFile, hdata] at hcf
          by_cases hstrip : pyStrip text ≠ []
          · rw [if_pos hstrip] at hcf
            obtain ⟨piece, hpiece, heq⟩ := List.mem_map.mp hcf
            subst heq
            exact splitText_bound text piece hpiece
          · rw [if_neg hstrip] at hcf
            simp at hcf
  · intro s rest text h
    rw [splitTextAux, if_pos (by simp [h])]

/-- C1 (witness): a two-character file is a chunk within the bound. -/
theorem C1_chunk_bound_witness :
    (⟨['h', 'i'], ['a', '.', 't', 'x', 't']⟩ : Chunk).content.length ≤ 1000 ∨
      (1000 ≤ (⟨['h', 'i'], ['a', '.', 't', 'x', 't']⟩ : Chunk).content.length ∧
        tailNoSpace (⟨['h', 'i'], ['a', '.', 't', 'x', 't']⟩ : Chunk).content) :=
  C1_chunk_bound.1 (some [⟨['a', '.', 't', 'x', 't'], .ok ['h', 'i']⟩])
    [⟨['h', 'i'], ['a', '.', 't', 'x', 't']⟩] (by decide)
    ⟨['h', 'i'], ['a', '.', 't', 'x', 't']⟩ (by decide)

/-- C2 (counterexample): a 1200-character document — not shorter than
`L + O = 1200` — splits into two consecutive chunks whose 200-character
suffix/prefix regions do not coincide (in fact they share no overlap at
all), refuting "the overlapping suffix/prefix region is exactly
`O = 200`". -/
theorem C2_counterexample :
    docC2.length = 1200 ∧
    splitText docC2 = [chunkC2a, chunkC2b] ∧
    chunkC2a.drop (chunkC2a.length - 200) ≠ chunkC2b.take 200 := by
  refine ⟨by decide, by decide, by decide⟩

/-- C2 (amended): the overlap between consecutive chunks is at most
`O = 200` characters and may be less, even zero, regardless of document
length: the merge loop's overlap-retention step (`popWhile`, the `while`
loop of `_merge_splits`) always keeps a suffix of the previous chunk's
window whose total length is at most the configured overlap, and that
retained window — possibly empty — is all that the next chunk inherits. -/
theorem C2_overlap_bound (lenD : Nat) (current : List Text) (total : Nat)
    (h : total = sumLen current) :
    (popWhile 200 1000 lenD current total).2 ≤ 200 ∧
    sumLen (popWhile 200 1000 lenD current total).1 ≤ 200 ∧
    (popWhile 200 1000 lenD current total).1 <:+ current := by
  obtain ⟨h1, h2, _, h4⟩ := popWhile_spec 200 1000 lenD current total h
  exact ⟨h2, by omega, h4⟩

/-- C2 (witness): the retention loop at a concrete window. -/
theorem C2_overlap_bound_witness :
    (popWhile 200 1000 5 [['a', 'b']] 2).2 ≤ 200 ∧
    sumLen (popWhile 200 1000 5 [['a', 'b']] 2).1 ≤ 200 ∧
    (popWhile 200 1000 5 [['a', 'b']] 2).1 <:+ [['a', 'b']] :=
  C2_overlap_bound 5 [['a', 'b']] 2 (by decide)

/-- C4: `load_and_split_documents` fails with the no-valid-documents error
iff, after processing every file of an existing directory, zero chunks
were produced; and a file whose read errors is skipped exactly as if it
were absent — it never aborts the whole operation. -/
theorem C4_no_valid_documents :
    (∀ files : Dir,
      loadAndSplitDocuments (some files) = .error .noValidDocuments ↔
        (files.filter (fun f => txtSuffix.isSuffixOf f.name)).flatMap processFile = []) ∧
    (∀ (pre post : Dir) (f : FileEntry), f.data = .error () →
      loadAndSplitDocuments (some (pre ++ f :: post)) =
        loadAndSplitDocuments (some (pre ++ post))) := by
  constructor
  · intro files
    simp only [loadAndSplitDocuments]
    constructor
    · intro h
      by_cases he :
          ((files.filter (fun f => txtSuffix.isSuffixOf f.name)).flatMap processFile).isEmpty
      · exact List.isEmpty_iff.mp he
      · rw [if_neg he] at h
        exact absurd h (by simp)
    · intro h
      rw [if_pos (by simp [h])]
  · intro pre post f hf
    have hAB : ((pre ++ f :: post).filter (fun f => txtSuffix.isSuffixOf f.name)).flatMap
          processFile
        = ((pre ++ post).filter (fun f => txtSuffix.isSuffixOf f.name)).flatMap processFile := by
      rw [List.filter_append, List.filter_append, List.filter_cons]
      by_cases htxt : txtSuffix.isSuffixOf f.name = true
      · rw [if_pos htxt, List.flatMap_append, List.flatMap_append, List.flatMap_cons]
        have hnil : processFile f = [] := by rw [processFile, hf]
        rw [hnil, List.nil_append]
      · rw [if_neg htxt]
    simp only [loadAndSplitDocuments, hAB]

/-- C4 (witness): an unreadable file amid readable ones changes nothing. -/
theorem C4_no_valid_documents_witness :
    loadAndSplitDocuments (some ([fileHiNl] ++ fileUnreadable :: [])) =
      loadAndSplitDocuments (some ([fileHiNl] ++ [])) :=
  C4_no_valid_documents.2 [fileHiNl] [] fileUnreadable rfl

/-- C5: `create_vector_store` fails with the invalid-input error on an
empty chunk sequence, and on every non-empty sequence returns a store
populated with exactly the given chunks, each paired with its
embedding. -/
theorem C5_create_vector_store (emb : Text → Vec) (documents : List Chunk) :
    (documents = [] → createVectorStore emb documents = .error .invalidInput) ∧
    (documents ≠ [] → ∃ store, createVectorStore emb documents = .ok store ∧
      store.entries.map Prod.fst = documents ∧
      store.entries.map Prod.snd = documents.map (fun d => emb d.content)) := by
  constructor
  · intro h; subst h; rfl
  · intro h
    refine ⟨⟨documents.map (fun d => (d, emb d.content))⟩, ?_, ?_, ?_⟩
    · rw [createVectorStore, if_neg (by simpa [List.isEmpty_iff] using h)]
    · simp [Function.comp_def]
    · simp [Function.comp_def]

/-- C5 (witness): a one-chunk store is built and populated. -/
theorem C5_create_vector_store_witness :
    ∃ store,
      createVectorStore cEmb [({ content := ['x'], source := ['s'] } : Chunk)] = .ok store ∧
      store.entries.map Prod.fst = [({ content := ['x'], source := ['s'] } : Chunk)] ∧
      store.entries.map Prod.snd =
        ([({ content := ['x'], source := ['s'] } : Chunk)]).map (fun d => cEmb d.content) :=
  (C5_create_vector_store cEmb [({ content := ['x'], source := ['s'] } : Chunk)]).2 (by decide)

/-- C6: a query over a populated, unchanged store returns exactly
`min k (number of stored chunks)` results, ordered by decreasing
similarity of the stored vectors to the embedded query, and re-running
the identical query against the unchanged store returns the identical
ordered result list. -/
theorem C6_query_topk (emb : Text → Vec) (sim : Vec → Vec → Int)
    (store : VectorStore) (text : Text) (k : Nat) :
    (queryStore emb sim store text k).length = min k store.entries.length ∧
    (queryStore emb sim store text k).Pairwise (fun a b => b.2 ≤ a.2) ∧
    (∀ r₁ r₂, r₁ = queryStore emb sim store text k →
      r₂ = queryStore emb sim store text k → r₁ = r₂) := by
  refine ⟨length_queryStore emb sim store text k, ?_, ?_⟩
  · exact (pairwise_sortDesc _).sublist (List.take_sublist _ _)
  · intro r₁ r₂ h₁ h₂
    rw [h₁, h₂]

/-- C6 (witness): two runs of a concrete query coincide. -/
theorem C6_query_topk_witness :
    queryStore cEmb cSim cStore ['q'] 1 = queryStore cEmb cSim cStore ['q'] 1 :=
  (C6_query_topk cEmb cSim cStore ['q'] 1).2.2 _ _ rfl rfl

/-- C7 (counterexample): after a failed language-model call the session
state is not exactly what it was before: the chat handler appends the
user's message to the history before calling the engine, and keeps it when
the call fails. -/
theorem C7_counterexample :
    chatStep cEmb cSim cFailLM cState ['q'] ≠ cState := by
  intro h
  have h2 := congrArg SessionState.chatHistory h
  simp [chatStep, cState, answerQuestion, cFailLM, mkEngine] at h2

/-- C7 (amended): a failed load or indexing operation leaves the session
state exactly unchanged, and a failed language-model call leaves the
engine handle (hence the store) and the document statistics unchanged
while the chat history is exactly the prior history with the user's
message appended — prior entries are never lost. -/
theorem C7_failure_preserves_state :
    (∀ (emb : Text → Vec) (s : SessionState) (files : Dir)
       (err : Except LoadErr BuildErr),
      (processFilesStep emb s files).2 = some err → (processFilesStep emb s files).1 = s) ∧
    (∀ (emb : Text → Vec) (sim : Vec → Vec → Int) (lm : ℚ → Text → Except Unit Text)
       (s : SessionState) (prompt : Text) (e : Engine), s.ragEngine = some e →
      answerQuestion emb sim lm e prompt = .error () →
      chatStep emb sim lm s prompt =
        { s with chatHistory := s.chatHistory ++ [⟨Role.user, prompt⟩] }) := by
  constructor
  · intro emb s files err h
    cases hl : loadAndSplitDocuments (some files) with
    | error e => simp [processFilesStep, hl]
    | ok docs =>
      cases hv : createVectorStore emb docs with
      | error e => simp [processFilesStep, hl, hv]
      | ok store =>
        simp only [processFilesStep, hl, hv] at h
        simp at h
  · intro emb sim lm s prompt e he hfail
    simp only [chatStep, he, hfail]

/-- C7 (witness): concrete failing operations with the stub components. -/
theorem C7_failure_preserves_state_witness :
    (processFilesStep cEmb cState []).1 = cState ∧
    chatStep cEmb cSim cFailLM cState ['q'] =
      { cState with chatHistory := cState.chatHistory ++ [⟨Role.user, ['q']⟩] } := by
  constructor
  · exact C7_failure_preserves_state.1 cEmb cState [] (.error .noValidDocuments) (by decide)
  · exact C7_failure_preserves_state.2 cEmb cSim cFailLM cState ['q'] (mkEngine ⟨[]⟩) rfl rfl

/-- C8: changing the settings between queries only overwrites the two
setting fields: the store handle is untouched (no re-embedding or
re-indexing), the next retrieval uses the new `context_length` as its `k`
(returning `min k (stored chunks)` results), and the Save Settings handler
leaves the chat history, the document statistics, and the engine's store
unchanged. -/
theorem C8_settings_frame (e : Engine) (t : ℚ) (k : Nat) :
    (updateSettings e t k).store = e.store ∧
    (updateSettings e t k).temperature = t ∧
    (updateSettings e t k).contextLength = k ∧
    (∀ (emb : Text → Vec) (sim : Vec → Vec → Int) (q : Text),
      retrieve emb sim (updateSettings e t k) q = queryStore emb sim e.store q k ∧
      (retrieve emb sim (updateSettings e t k) q).length = min k e.store.entries.length) ∧
    (∀ s : SessionState,
      (saveSettingsStep s t k).chatHistory = s.chatHistory ∧
      (saveSettingsStep s t k).docStats = s.docStats ∧
      (saveSettingsStep s t k).ragEngine.map Engine.store = s.ragEngine.map Engine.store) := by
  refine ⟨rfl, rfl, rfl, ?_, ?_⟩
  · intro emb sim q
    exact ⟨rfl, length_queryStore emb sim e.store q k⟩
  · intro s
    cases hs : s.ragEngine with
    | none => simp [saveSettingsStep, hs]
    | some e' => simp [saveSettingsStep, hs, updateSettings]

/-- C9: in an existing directory with no `.txt` file, the loader opens and
reads no file at all — non-`.txt` files are passed over without even a
log line — and the operation fails with the no-valid-documents error, not
the directory-not-found error. -/
theorem C9_non_txt_skipped (files : Dir)
    (h : ∀ f ∈ files, txtSuffix.isSuffixOf f.name = false) :
    processedFileNames files = [] ∧
    loadAndSplitDocuments (some files) = .error .noValidDocuments := by
  have hfilter : files.filter (fun f => txtSuffix.isSuffixOf f.name) = [] :=
    List.filter_eq_nil_iff.mpr (by intro f hf; simp [h f hf])
  constructor
  · rw [processedFileNames, hfilter]; rfl
  · simp only [loadAndSplitDocuments, hfilter]; rfl

/-- C9 (witness): a directory holding a single `.pdf` file. -/
theorem C9_non_txt_skipped_witness :
    processedFileNames dirOnlyPdf = [] ∧
    loadAndSplitDocuments (some dirOnlyPdf) = .error .noValidDocuments :=
  C9_non_txt_skipped dirOnlyPdf (by decide)

/-- C10: the Clear Chat History action resets exactly the chat history to
the empty list; the engine handle (and so the built store) and the
document statistics are left untouched. -/
theorem C10_clear_chat (s : SessionState) :
    (clearChatHistory s).chatHistory = [] ∧
    (clearChatHistory s).ragEngine = s.ragEngine ∧
    (clearChatHistory s).docStats = s.docStats :=
  ⟨rfl, rfl, rfl⟩

end RAG
